import Mathlib

/-!
Verification of the gribouillis backend (pmezard/gribouillis).

The development shallowly embeds the core of the Go program:

* `LimitedDir` with `OpenLimitedDir`, `LimitedDir.shrink`, `LimitedDir.Add`
  and `LimitedDir.List` (the bounded directory store);
* the rate gate inside the `/save/` HTTP handler (`gateCheck`, `gateStep`,
  plus an interleaving model of its two separate critical sections);
* `fixImage` (white padding of a decoded image);
* `save` (the ingestion pipeline around `fixImage` and `Add`).

The filesystem is modelled as an association list from file names to sizes
(`Disk`). `os.Stat` is `Disk.lookup`; `os.Remove` removes the entry when it
is present and reports "does not exist" (`none` from the lookup) otherwise;
other I/O errors (permissions and the like) are not modelled. Go `int64`
values are modelled as `Int`; arithmetic overflow is irrelevant at the sizes
the claims quantify over and is not modelled.
-/

set_option autoImplicit false

/-- Go struct `File { Name string; Size int64 }`. -/
structure File where
  name : String
  size : Int
deriving Repr, DecidableEq

/-- The contents of the managed directory: file name to size, names unique
in well-formed states. -/
abbrev Disk := List (String × Int)

/-- `os.Stat` on `path/name`: the size when the file exists. -/
def Disk.lookup : Disk → String → Option Int
  | [], _ => none
  | (m, v) :: rest, n => if m = n then some v else Disk.lookup rest n

/-- `os.Remove` on `path/name`: drops the (first) entry with that name. -/
def Disk.remove : Disk → String → Disk
  | [], _ => []
  | (m, v) :: rest, n => if m = n then rest else (m, v) :: Disk.remove rest n

/-- `os.Create` / a completed write: (re)binds `name` to size `v`. -/
def Disk.set (disk : Disk) (n : String) (v : Int) : Disk :=
  (n, v) :: Disk.remove disk n

/-- Every size recorded on disk is nonnegative, as `os.Stat` guarantees. -/
def DiskOk (disk : Disk) : Prop := ∀ p ∈ disk, 0 ≤ p.2

instance (disk : Disk) : Decidable (DiskOk disk) := by
  unfold DiskOk
  infer_instance

/-- Go struct `LimitedDir` (the mutex is implicit: the embedding of each
operation is the whole critical section). -/
structure LimitedDir where
  path : String
  maxSize : Int
  maxCount : Nat
  files : List File
  size : Int
deriving Repr, DecidableEq

/-- Sum of the sizes of a tracked sequence. -/
def sumSizes (files : List File) : Int := (files.map File.size).sum

/-- The loop of `LimitedDir.shrink`:
`for (d.size > d.maxSize && len(d.files) > 0) || len(d.files) > d.maxCount`,
popping `d.files[0]`, calling `os.Remove`, and subtracting the popped size
only when the removal succeeded (`err == nil`). `maxCount` is a `Nat`: the
program only builds stores with a nonnegative count. -/
def shrinkGo (maxSize : Int) (maxCount : Nat) :
    List File → Int → Disk → List File × Int × Disk
  | [], size, disk => ([], size, disk)
  | f :: rest, size, disk =>
    if maxSize < size ∨ maxCount < rest.length + 1 then
      match Disk.lookup disk f.name with
      | some _ => shrinkGo maxSize maxCount rest (size - f.size) (Disk.remove disk f.name)
      | none => shrinkGo maxSize maxCount rest size disk
    else (f :: rest, size, disk)

/-- Go `(*LimitedDir).shrink`, acting on the store and the directory. -/
def LimitedDir.shrink (d : LimitedDir) (disk : Disk) : LimitedDir × Disk :=
  let r := shrinkGo d.maxSize d.maxCount d.files d.size disk
  ({ d with files := r.1, size := r.2.1 }, r.2.2)

/-- The error `Add` returns when `os.Stat` fails on the new file. -/
inductive AddError where
  | notFound
deriving Repr, DecidableEq

/-- Go `(*LimitedDir).Add`: stat the file, append `File{name, st.Size()}`,
add the statted size to the running total, then shrink. -/
def LimitedDir.Add (d : LimitedDir) (name : String) (disk : Disk) :
    Except AddError (LimitedDir × Disk) :=
  match Disk.lookup disk name with
  | none => Except.error AddError.notFound
  | some sz =>
    Except.ok (LimitedDir.shrink
      { d with files := d.files ++ [⟨name, sz⟩], size := d.size + sz } disk)

/-- Go `(*LimitedDir).List`: the tracked names, in deletion order. -/
def LimitedDir.List (d : LimitedDir) : List String := d.files.map File.name

/-- One entry of `ioutil.ReadDir`: name, size, modification time
(nanoseconds), and whether `Mode().IsRegular()`. -/
structure DirEntry where
  name : String
  size : Int
  modTime : Int
  regular : Bool
deriving Repr, DecidableEq

/-- Go `sortedFiles.Less`: `ti != tj && tj.After(ti)`, i.e. strictly earlier
modification time. -/
def sortedFilesLess (a b : DirEntry) : Bool :=
  decide (a.modTime ≠ b.modTime) && decide (a.modTime < b.modTime)

/-- Go `sort.Sort(sortedFiles(entries))`: a permutation ordered so that no
later element is `Less` than an earlier one. `sort.Sort` leaves the order of
ties unspecified; any sorting algorithm is a faithful model. -/
def sortEntries (entries : List DirEntry) : List DirEntry :=
  List.insertionSort (fun a b => sortedFilesLess b a = false) entries

/-- The body of the `for i, e := range entries` loop of `OpenLimitedDir`:
`files` is preallocated with `make([]File, len(entries))`, and a non-regular
entry is skipped by `continue`, leaving the zero value `File{"", 0}` at its
index. -/
def entryFile (e : DirEntry) : File :=
  if e.regular then ⟨e.name, e.size⟩ else ⟨"", 0⟩

/-- The contribution of one entry to `total` in `OpenLimitedDir`
(`total += files[i].Size` runs only for regular entries). -/
def entrySizeContrib (e : DirEntry) : Int :=
  if e.regular then e.size else 0

/-- The `LimitedDir` literal built by `OpenLimitedDir` before `d.shrink()`. -/
def openInit (path : String) (maxSize : Int) (maxCount : Nat)
    (entries : List DirEntry) : LimitedDir :=
  let sorted := sortEntries entries
  { path := path
    maxSize := maxSize
    maxCount := maxCount
    files := sorted.map entryFile
    size := (sorted.map entrySizeContrib).sum }

/-- The directory contents seen by `OpenLimitedDir`. -/
def entriesDisk (entries : List DirEntry) : Disk :=
  entries.map (fun e => (e.name, e.size))

/-- Go `OpenLimitedDir`: read the directory, sort, build the sequence and the
total, then shrink. -/
def OpenLimitedDir (path : String) (maxSize : Int) (maxCount : Nat)
    (entries : List DirEntry) : LimitedDir × Disk :=
  (openInit path maxSize maxCount entries).shrink (entriesDisk entries)

/-- The states of the store the program can reach: the result of
`OpenLimitedDir`, followed by any sequence of successful `Add` calls. The
disk supplied to each `Add` is arbitrary (other processes may create or
delete files out of band) but carries nonnegative sizes. -/
inductive Reachable : LimitedDir → Prop where
  | openD (path : String) (maxSize : Int) (maxCount : Nat)
      (entries : List DirEntry) :
      (∀ e ∈ entries, 0 ≤ e.size) →
      Reachable (OpenLimitedDir path maxSize maxCount entries).1
  | add (d : LimitedDir) (disk : Disk) (name : String)
      (d' : LimitedDir) (disk' : Disk) :
      Reachable d → DiskOk disk →
      LimitedDir.Add d name disk = Except.ok (d', disk') →
      Reachable d'

/-- Extracts the result of a successful `Add` (used only to write concrete
traces compactly). -/
def addOk (d : LimitedDir) (name : String) (disk : Disk) : LimitedDir × Disk :=
  match LimitedDir.Add d name disk with
  | Except.ok p => p
  | Except.error _ => (d, disk)

/-- The `lastTime` state of the rate gate in `gribouillis`. -/
structure RateGate where
  lastTime : Int
deriving Repr, DecidableEq

/-- The first critical section plus the test of the `/save/` handler: the
request passes unless `now.Sub(last) < minDelay`. -/
def gateCheck (minDelay last now : Int) : Bool :=
  !(decide (now - last < minDelay))

/-- The second critical section of the `/save/` handler: `lastTime = now`. -/
def gateUpdate (now : Int) : Int := now

/-- The whole gate as executed without interference: check, and on success
update `lastTime` to the arrival time. -/
def gateStep (minDelay : Int) (g : RateGate) (now : Int) : Bool × RateGate :=
  if gateCheck minDelay g.lastTime now then (true, ⟨gateUpdate now⟩)
  else (false, g)

/-- A configuration of two concurrent `/save/` requests racing on the gate:
the shared `lastTime`, and for each request the outcome of its check once it
has run. -/
structure TwoReqState where
  lastTime : Int
  pass1 : Option Bool
  pass2 : Option Bool
deriving Repr, DecidableEq

/-- The atomic events of the two requests: each check and each conditional
update is one critical section of `lastTimeMutex` in the code, so events of
the two requests may interleave between a check and its update. -/
inductive GateEv where
  | check1
  | write1
  | check2
  | write2
deriving Repr, DecidableEq

/-- One critical section of the racing-gate model; request `i` arrives at
time `ti`. A write happens only for a request whose check passed. -/
def gateEvStep (minDelay t1 t2 : Int) (s : TwoReqState) : GateEv → TwoReqState
  | GateEv.check1 => { s with pass1 := some (gateCheck minDelay s.lastTime t1) }
  | GateEv.write1 =>
      if s.pass1 = some true then { s with lastTime := gateUpdate t1 } else s
  | GateEv.check2 => { s with pass2 := some (gateCheck minDelay s.lastTime t2) }
  | GateEv.write2 =>
      if s.pass2 = some true then { s with lastTime := gateUpdate t2 } else s

/-- Runs a schedule (an interleaving of the critical sections). -/
def runGateSched (minDelay t1 t2 : Int) (s : TwoReqState) :
    List GateEv → TwoReqState
  | [] => s
  | e :: rest => runGateSched minDelay t1 t2 (gateEvStep minDelay t1 t2 s e) rest

/-- An 8-bit RGBA pixel, the color model of `image.NewRGBA`. -/
structure Color where
  r : Nat
  g : Nat
  b : Nat
  a : Nat
deriving Repr, DecidableEq

/-- `color.RGBA{255, 255, 255, 255}` in `fixImage`. -/
def white : Color := ⟨255, 255, 255, 255⟩

/-- `image.Rectangle`: half-open `[minX, maxX) × [minY, maxY)`. -/
structure Rect where
  minX : Int
  minY : Int
  maxX : Int
  maxY : Int
deriving Repr, DecidableEq

/-- Membership of a point in a rectangle, as tested by the `fixImage` loop. -/
def Rect.inside (r : Rect) (x y : Int) : Prop :=
  r.minX ≤ x ∧ x < r.maxX ∧ r.minY ≤ y ∧ y < r.maxY

instance (r : Rect) (x y : Int) : Decidable (r.inside x y) := by
  unfold Rect.inside
  infer_instance

/-- A decoded image: bounds plus the pixels. Pixels are only ever read
inside some bounds; values of `px` outside all bounds never matter. -/
structure Img where
  bounds : Rect
  px : Int → Int → Color

/-- Go `fixImage` after a successful decode: the destination rectangle is
the source rectangle grown by `padding` on all four sides, and the nested
loops set every destination pixel to the source pixel when inside the source
bounds and to opaque white otherwise. -/
def fixImage (src : Img) (padding : Int) : Img :=
  let srcRect := src.bounds
  let dstRect : Rect :=
    ⟨srcRect.minX - padding, srcRect.minY - padding,
     srcRect.maxX + padding, srcRect.maxY + padding⟩
  { bounds := dstRect
    px := fun i j =>
      if srcRect.inside i j then src.px i j else white }

/-- The outcome of one `save` call: the store, the directory, and whether
the handler answered with the JSON success payload. -/
structure SaveOutcome where
  store : LimitedDir
  disk : Disk
  ok : Bool
deriving Repr, DecidableEq

/-- Go `save`, after the random name has been drawn. `encoded` stands for
the outcome of `fixImage` on the request body: `none` when the decode or
re-encode fails, `some sz` when `sz` bytes of PNG were written. On failure
the deferred cleanup closes and removes the candidate file; after a
successful close `fp` is set to `nil`, so a subsequent `Add` failure leaves
the committed file on disk. -/
def save (store : LimitedDir) (disk : Disk) (name : String)
    (encoded : Option Int) : SaveOutcome :=
  let created := Disk.set disk name 0
  match encoded with
  | none =>
      { store := store, disk := Disk.remove created name, ok := false }
  | some sz =>
      let committed := Disk.set created name sz
      match LimitedDir.Add store name committed with
      | Except.error _ => { store := store, disk := committed, ok := false }
      | Except.ok p => { store := p.1, disk := p.2, ok := true }

theorem sumSizes_nil : sumSizes [] = 0 := rfl

theorem sumSizes_cons (f : File) (l : List File) :
    sumSizes (f :: l) = f.size + sumSizes l := by
  simp [sumSizes]

theorem sumSizes_append (l1 l2 : List File) :
    sumSizes (l1 ++ l2) = sumSizes l1 + sumSizes l2 := by
  simp [sumSizes]

theorem sumSizes_nonneg (l : List File) (h : ∀ g ∈ l, 0 ≤ g.size) :
    0 ≤ sumSizes l := by
  induction l with
  | nil => simp [sumSizes]
  | cons g rest ih =>
    rw [sumSizes_cons]
    have h1 : 0 ≤ g.size := h g (List.mem_cons_self g rest)
    have h2 : 0 ≤ sumSizes rest := ih fun x hx => h x (List.mem_cons_of_mem g hx)
    omega

theorem Disk.lookup_mem (disk : Disk) (n : String) (v : Int)
    (h : Disk.lookup disk n = some v) : (n, v) ∈ disk := by
  induction disk with
  | nil => simp [Disk.lookup] at h
  | cons p rest ih =>
    obtain ⟨m, w⟩ := p
    simp only [Disk.lookup] at h
    split at h
    · next heq =>
      injection h with h
      subst heq h
      exact List.mem_cons_self _ _
    · exact List.mem_cons_of_mem _ (ih h)

theorem Disk.lookup_remove_ne (disk : Disk) (m n : String) (hne : m ≠ n) :
    Disk.lookup (Disk.remove disk m) n = Disk.lookup disk n := by
  induction disk with
  | nil => rfl
  | cons p rest ih =>
    obtain ⟨k, w⟩ := p
    by_cases hk : k = m
    · subst hk
      have hkn : ¬ k = n := hne
      simp [Disk.remove, Disk.lookup, hkn]
    · by_cases hkn : k = n
      · subst hkn
        simp [Disk.remove, Disk.lookup, hk]
      · simp [Disk.remove, Disk.lookup, hk, hkn, ih]

theorem Disk.remove_of_lookup_none (disk : Disk) (n : String)
    (h : Disk.lookup disk n = none) : Disk.remove disk n = disk := by
  induction disk with
  | nil => rfl
  | cons p rest ih =>
    obtain ⟨k, w⟩ := p
    simp only [Disk.lookup] at h
    split at h
    · exact absurd h (by simp)
    · next hk => simp [Disk.remove, hk, ih h]

theorem shrinkGo_post (maxSize : Int) (maxCount : Nat) :
    ∀ (files : List File) (size : Int) (disk : Disk),
      (shrinkGo maxSize maxCount files size disk).1 = [] ∨
      ((shrinkGo maxSize maxCount files size disk).2.1 ≤ maxSize ∧
        (shrinkGo maxSize maxCount files size disk).1.length ≤ maxCount) := by
  intro files
  induction files with
  | nil => intro size disk; left; rfl
  | cons f rest ih =>
    intro size disk
    rw [shrinkGo]
    by_cases hc : maxSize < size ∨ maxCount < rest.length + 1
    · rw [if_pos hc]
      cases hl : Disk.lookup disk f.name with
      | some v => simpa using ih (size - f.size) (Disk.remove disk f.name)
      | none => simpa using ih size disk
    · rw [if_neg hc]
      push_neg at hc
      right
      exact ⟨hc.1, hc.2⟩

theorem shrinkGo_drop (maxSize : Int) (maxCount : Nat) :
    ∀ (files : List File) (size : Int) (disk : Disk),
      ∃ k, (shrinkGo maxSize maxCount files size disk).1 = files.drop k := by
  intro files
  induction files with
  | nil => intro size disk; exact ⟨0, rfl⟩
  | cons f rest ih =>
    intro size disk
    rw [shrinkGo]
    by_cases hc : maxSize < size ∨ maxCount < rest.length + 1
    · rw [if_pos hc]
      cases hl : Disk.lookup disk f.name with
      | some v =>
        obtain ⟨k, hk⟩ := ih (size - f.size) (Disk.remove disk f.name)
        exact ⟨k + 1, by simpa using hk⟩
      | none =>
        obtain ⟨k, hk⟩ := ih size disk
        exact ⟨k + 1, by simpa using hk⟩
    · rw [if_neg hc]
      exact ⟨0, rfl⟩

theorem shrinkGo_le (maxSize : Int) (maxCount : Nat) :
    ∀ (files : List File) (size : Int) (disk : Disk),
      (∀ f ∈ files, 0 ≤ f.size) → sumSizes files ≤ size →
      (∀ f ∈ (shrinkGo maxSize maxCount files size disk).1, 0 ≤ f.size) ∧
        sumSizes (shrinkGo maxSize maxCount files size disk).1 ≤
          (shrinkGo maxSize maxCount files size disk).2.1 := by
  intro files
  induction files with
  | nil =>
    intro size disk hnn hsum
    exact ⟨hnn, hsum⟩
  | cons f rest ih =>
    intro size disk hnn hsum
    have hf : 0 ≤ f.size := hnn f (List.mem_cons_self f rest)
    have hrest : ∀ g ∈ rest, 0 ≤ g.size :=
      fun g hg => hnn g (List.mem_cons_of_mem f hg)
    rw [sumSizes_cons] at hsum
    rw [shrinkGo]
    by_cases hc : maxSize < size ∨ maxCount < rest.length + 1
    · rw [if_pos hc]
      cases hl : Disk.lookup disk f.name with
      | some v =>
        have := ih (size - f.size) (Disk.remove disk f.name) hrest (by omega)
        simpa using this
      | none =>
        have := ih size disk hrest (by omega)
        simpa using this
    · rw [if_neg hc]
      refine ⟨hnn, ?_⟩
      show sumSizes (f :: rest) ≤ size
      rw [sumSizes_cons]
      omega

theorem shrinkGo_oversize (maxSize : Int) (maxCount : Nat) (f : File) :
    ∀ (l : List File) (size : Int) (disk : Disk),
      (∀ g ∈ l, 0 ≤ g.size) → 0 ≤ f.size →
      sumSizes (l ++ [f]) ≤ size → maxSize < f.size →
      (shrinkGo maxSize maxCount (l ++ [f]) size disk).1 = [] := by
  intro l
  induction l with
  | nil =>
    intro size disk hnn hf hsum hbig
    have hs : sumSizes ([] ++ [f]) = f.size := by simp [sumSizes]
    rw [hs] at hsum
    rw [List.nil_append, shrinkGo, if_pos (Or.inl (by omega))]
    cases hl : Disk.lookup disk f.name with
    | some v => rfl
    | none => rfl
  | cons g rest ih =>
    intro size disk hnn hf hsum hbig
    have hg : 0 ≤ g.size := hnn g (List.mem_cons_self g rest)
    have hrest : ∀ x ∈ rest, 0 ≤ x.size :=
      fun x hx => hnn x (List.mem_cons_of_mem g hx)
    have hsum2 : sumSizes ((g :: rest) ++ [f]) = g.size + sumSizes (rest ++ [f]) := by
      rw [List.cons_append, sumSizes_cons]
    have htail : 0 ≤ sumSizes (rest ++ [f]) := by
      apply sumSizes_nonneg
      intro x hx
      rcases List.mem_append.mp hx with hx | hx
      · exact hrest x hx
      · rw [List.mem_singleton.mp hx]; exact hf
    have hfle : f.size ≤ sumSizes (rest ++ [f]) := by
      have : sumSizes (rest ++ [f]) = sumSizes rest + f.size := by
        rw [sumSizes_append]; simp [sumSizes]
      have hr : 0 ≤ sumSizes rest := sumSizes_nonneg rest hrest
      omega
    rw [List.cons_append, shrinkGo, if_pos (Or.inl (by rw [hsum2] at hsum; omega))]
    cases hl : Disk.lookup disk g.name with
    | some v =>
      exact ih (size - g.size) (Disk.remove disk g.name) hrest hf
        (by rw [hsum2] at hsum; omega) hbig
    | none =>
      exact ih size disk hrest hf (by rw [hsum2] at hsum; omega) hbig

theorem shrinkGo_acct (maxSize : Int) (maxCount : Nat) :
    ∀ (files : List File) (size : Int) (disk : Disk),
      sumSizes files = size →
      (files.map File.name).Nodup →
      (∀ f ∈ files, (Disk.lookup disk f.name).isSome) →
      sumSizes (shrinkGo maxSize maxCount files size disk).1 =
        (shrinkGo maxSize maxCount files size disk).2.1 := by
  intro files
  induction files with
  | nil =>
    intro size disk hsum _ _
    exact hsum
  | cons f rest ih =>
    intro size disk hsum hnd hdisk
    rw [sumSizes_cons] at hsum
    rw [shrinkGo]
    by_cases hc : maxSize < size ∨ maxCount < rest.length + 1
    · rw [if_pos hc]
      have hsome : (Disk.lookup disk f.name).isSome :=
        hdisk f (List.mem_cons_self f rest)
      cases hl : Disk.lookup disk f.name with
      | none => rw [hl] at hsome; simp at hsome
      | some v =>
        have hnd2 : (rest.map File.name).Nodup := by
          rw [List.map_cons, List.nodup_cons] at hnd
          exact hnd.2
        have hnotin : f.name ∉ rest.map File.name := by
          rw [List.map_cons, List.nodup_cons] at hnd
          exact hnd.1
        have hdisk2 : ∀ g ∈ rest, (Disk.lookup (Disk.remove disk f.name) g.name).isSome := by
          intro g hg
          have hne : f.name ≠ g.name := by
            intro hcontra
            exact hnotin (hcontra ▸ List.mem_map_of_mem File.name hg)
          rw [Disk.lookup_remove_ne disk f.name g.name hne]
          exact hdisk g (List.mem_cons_of_mem f hg)
        have := ih (size - f.size) (Disk.remove disk f.name) (by omega) hnd2 hdisk2
        simpa using this
    · rw [if_neg hc]
      show sumSizes (f :: rest) = size
      rw [sumSizes_cons]
      omega

theorem shrinkGo_noop (maxSize : Int) (maxCount : Nat)
    (files : List File) (size : Int) (disk : Disk)
    (h1 : size ≤ maxSize) (h2 : files.length ≤ maxCount) :
    shrinkGo maxSize maxCount files size disk = (files, size, disk) := by
  cases files with
  | nil => rfl
  | cons f rest =>
    rw [List.length_cons] at h2
    rw [shrinkGo, if_neg (by push_neg; exact ⟨h1, h2⟩)]

theorem entryFile_size (e : DirEntry) :
    (entryFile e).size = entrySizeContrib e := by
  cases he : e.regular <;> simp [entryFile, entrySizeContrib, he]

theorem sumSizes_map_entryFile (l : List DirEntry) :
    sumSizes (l.map entryFile) = (l.map entrySizeContrib).sum := by
  induction l with
  | nil => rfl
  | cons e rest ih =>
    rw [List.map_cons, sumSizes_cons, List.map_cons, List.sum_cons, ih,
      entryFile_size]

theorem mem_sortEntries (entries : List DirEntry) (e : DirEntry) :
    e ∈ sortEntries entries ↔ e ∈ entries :=
  (List.perm_insertionSort _ entries).mem_iff

theorem openInit_nonneg (path : String) (maxSize : Int) (maxCount : Nat)
    (entries : List DirEntry) (h : ∀ e ∈ entries, 0 ≤ e.size) :
    ∀ f ∈ (openInit path maxSize maxCount entries).files, 0 ≤ f.size := by
  intro f hf
  obtain ⟨e, he, rfl⟩ := List.mem_map.mp hf
  have he2 : e ∈ entries := (mem_sortEntries entries e).mp he
  have hs := h e he2
  cases hr : e.regular
  · simp [entryFile, hr]
  · simpa [entryFile, hr] using hs

theorem openInit_size (path : String) (maxSize : Int) (maxCount : Nat)
    (entries : List DirEntry) :
    sumSizes (openInit path maxSize maxCount entries).files =
      (openInit path maxSize maxCount entries).size :=
  sumSizes_map_entryFile (sortEntries entries)

theorem reachable_acct (d : LimitedDir) (h : Reachable d) :
    (∀ f ∈ d.files, 0 ≤ f.size) ∧ sumSizes d.files ≤ d.size := by
  induction h with
  | openD path maxSize maxCount entries hnn =>
    have h0 := openInit_nonneg path maxSize maxCount entries hnn
    have h1 : sumSizes (openInit path maxSize maxCount entries).files ≤
        (openInit path maxSize maxCount entries).size :=
      le_of_eq (openInit_size path maxSize maxCount entries)
    exact shrinkGo_le maxSize maxCount
      (openInit path maxSize maxCount entries).files
      (openInit path maxSize maxCount entries).size
      (entriesDisk entries) h0 h1
  | add d disk name d' disk' hr hok heq ih =>
    cases hl : Disk.lookup disk name with
    | none =>
      simp only [LimitedDir.Add, hl] at heq
      exact Except.noConfusion heq
    | some sz =>
      simp only [LimitedDir.Add, hl] at heq
      injection heq with heq
      have hd : d' =
          (LimitedDir.shrink
            { d with files := d.files ++ [⟨name, sz⟩], size := d.size + sz }
            disk).1 := by
        rw [heq]
      subst hd
      have hnn2 : ∀ f ∈ d.files ++ [(⟨name, sz⟩ : File)], 0 ≤ f.size := by
        intro f hf
        rcases List.mem_append.mp hf with hf | hf
        · exact ih.1 f hf
        · rw [List.mem_singleton.mp hf]
          exact hok (name, sz) (Disk.lookup_mem disk name sz hl)
      have hsum2 : sumSizes (d.files ++ [(⟨name, sz⟩ : File)]) ≤ d.size + sz := by
        rw [sumSizes_append]
        have h1 : sumSizes [(⟨name, sz⟩ : File)] = sz := by simp [sumSizes]
        have h2 := ih.2
        omega
      exact shrinkGo_le d.maxSize d.maxCount
        (d.files ++ [⟨name, sz⟩]) (d.size + sz) disk hnn2 hsum2

/-- The store obtained by opening an empty directory with quotas
maxSize 5 and maxCount 4 (the configuration of the repository's test). -/
def emptyStore : LimitedDir := (OpenLimitedDir "images" 5 4 []).1

/-- Claim C1, counterexample to the claim as stated: in the reachable state
obtained by opening an empty directory, the tracked sequence is empty AND
the two quota bounds hold, so it is not the case that exactly one of the
two alternatives holds — both do. -/
theorem claim1_cex :
    Reachable emptyStore ∧
    emptyStore.files = [] ∧
    emptyStore.size ≤ emptyStore.maxSize ∧
    emptyStore.files.length ≤ emptyStore.maxCount ∧
    ¬ (((emptyStore.files = [] ∨
          (emptyStore.size ≤ emptyStore.maxSize ∧
            emptyStore.files.length ≤ emptyStore.maxCount)) ∧
        ¬ (emptyStore.files = [] ∧
          (emptyStore.size ≤ emptyStore.maxSize ∧
            emptyStore.files.length ≤ emptyStore.maxCount)))) := by
  refine ⟨Reachable.openD "images" 5 4 [] (by simp), by decide, by decide,
    by decide, by decide⟩

/-- Claim C1, amended: in every reachable state of the store (after
`OpenLimitedDir` and after every successful `Add`), at least one of the
following holds: the tracked sequence is empty, or
`totalSizeBytes ≤ maxSizeBytes` and `count ≤ maxCount` (an empty store
within bounds satisfies both); and a successful `Add` of a single file
larger than `maxSizeBytes` leaves the store empty. -/
theorem claim1_quota_invariant (d : LimitedDir) (hr : Reachable d) :
    (d.files = [] ∨ (d.size ≤ d.maxSize ∧ d.files.length ≤ d.maxCount)) ∧
    (∀ (disk : Disk) (name : String) (sz : Int), DiskOk disk →
      Disk.lookup disk name = some sz → d.maxSize < sz →
      ∀ (d' : LimitedDir) (disk' : Disk),
        LimitedDir.Add d name disk = Except.ok (d', disk') →
        d'.files = []) := by
  constructor
  · induction hr with
    | openD path maxSize maxCount entries hnn =>
      exact shrinkGo_post maxSize maxCount
        (openInit path maxSize maxCount entries).files
        (openInit path maxSize maxCount entries).size
        (entriesDisk entries)
    | add d disk name d' disk' hrd hok heq ihd =>
      cases hl : Disk.lookup disk name with
      | none =>
        simp only [LimitedDir.Add, hl] at heq
        exact Except.noConfusion heq
      | some sz =>
        simp only [LimitedDir.Add, hl] at heq
        injection heq with heq
        have hd : d' =
            (LimitedDir.shrink
              { d with files := d.files ++ [⟨name, sz⟩], size := d.size + sz }
              disk).1 := by
          rw [heq]
        subst hd
        exact shrinkGo_post d.maxSize d.maxCount
          (d.files ++ [⟨name, sz⟩]) (d.size + sz) disk
  · intro disk name sz hok hl hbig d' disk' heq
    simp only [LimitedDir.Add, hl] at heq
    injection heq with heq
    have hd : d' =
        (LimitedDir.shrink
          { d with files := d.files ++ [⟨name, sz⟩], size := d.size + sz }
          disk).1 := by
      rw [heq]
    subst hd
    have hacct := reachable_acct d hr
    have hsz : (0 : Int) ≤ sz := hok (name, sz) (Disk.lookup_mem disk name sz hl)
    have hsum : sumSizes (d.files ++ [(⟨name, sz⟩ : File)]) ≤ d.size + sz := by
      rw [sumSizes_append]
      have h1 : sumSizes [(⟨name, sz⟩ : File)] = sz := by simp [sumSizes]
      have h2 := hacct.2
      omega
    exact shrinkGo_oversize d.maxSize d.maxCount ⟨name, sz⟩ d.files
      (d.size + sz) disk hacct.1 hsz hsum hbig

/-- Claim C1 witness: the amended invariant evaluated on the store opened
over an empty directory. -/
theorem claim1_quota_invariant_witness :
    emptyStore.files = [] ∨
      (emptyStore.size ≤ emptyStore.maxSize ∧
        emptyStore.files.length ≤ emptyStore.maxCount) :=
  (claim1_quota_invariant emptyStore
    (Reachable.openD "images" 5 4 [] (by simp))).1

/-- The store after opening a directory containing only the 3-byte regular
file `a`, with maxSize 10 and maxCount 1. -/
def storeA : LimitedDir := (OpenLimitedDir "images" 10 1 [⟨"a", 3, 0, true⟩]).1

/-- Claim C2, counterexample to the claim as stated: open a directory
holding `a` (3 bytes) with maxCount 1; `a` is then deleted out of band and
`b` (4 bytes) written; `Add "b"` evicts the tracked `a`, finds it already
absent, and drops the entry WITHOUT subtracting its size, reaching a store
whose `size` field is 7 while the only tracked file has size 4. -/
theorem claim2_cex :
    Reachable (addOk storeA "b" [("b", 4)]).1 ∧
    (addOk storeA "b" [("b", 4)]).1.size ≠
      sumSizes (addOk storeA "b" [("b", 4)]).1.files := by
  constructor
  · refine Reachable.add storeA [("b", 4)] "b"
      (addOk storeA "b" [("b", 4)]).1 (addOk storeA "b" [("b", 4)]).2
      ?_ (by decide) rfl
    exact Reachable.openD "images" 10 1 [⟨"a", 3, 0, true⟩] (by decide)
  · decide

/-- Claim C2, amended: `totalSizeBytes` equals the sum of the sizes of the
currently tracked files after an `Add`, provided it did before, the tracked
names are distinct, every tracked file is still present on disk, and the
added name is not already tracked; when the eviction loop encounters a
tracked file that is already absent on disk it drops the entry without
subtracting its size, so the equality can fail. -/
theorem claim2_acct (d : LimitedDir) (disk : Disk) (name : String)
    (d' : LimitedDir) (disk' : Disk)
    (hacct : d.size = sumSizes d.files)
    (hnd : (d.files.map File.name).Nodup)
    (hdisk : ∀ f ∈ d.files, (Disk.lookup disk f.name).isSome)
    (hfresh : name ∉ d.files.map File.name)
    (heq : LimitedDir.Add d name disk = Except.ok (d', disk')) :
    d'.size = sumSizes d'.files := by
  cases hl : Disk.lookup disk name with
  | none =>
    simp only [LimitedDir.Add, hl] at heq
    exact Except.noConfusion heq
  | some sz =>
    simp only [LimitedDir.Add, hl] at heq
    injection heq with heq
    have hd : d' =
        (LimitedDir.shrink
          { d with files := d.files ++ [⟨name, sz⟩], size := d.size + sz }
          disk).1 := by
      rw [heq]
    subst hd
    have hsum : sumSizes (d.files ++ [(⟨name, sz⟩ : File)]) = d.size + sz := by
      rw [sumSizes_append]
      have h1 : sumSizes [(⟨name, sz⟩ : File)] = sz := by simp [sumSizes]
      omega
    have hnd2 : ((d.files ++ [(⟨name, sz⟩ : File)]).map File.name).Nodup := by
      rw [List.map_append]
      refine List.Nodup.append hnd (by simp) ?_
      intro a ha hb
      simp only [List.map_cons, List.map_nil, List.mem_singleton] at hb
      exact hfresh (hb ▸ ha)
    have hdisk2 : ∀ f ∈ d.files ++ [(⟨name, sz⟩ : File)],
        (Disk.lookup disk f.name).isSome := by
      intro f hf
      rcases List.mem_append.mp hf with hf | hf
      · exact hdisk f hf
      · rw [List.mem_singleton.mp hf]
        simp [hl]
    exact (shrinkGo_acct d.maxSize d.maxCount
      (d.files ++ [⟨name, sz⟩]) (d.size + sz) disk hsum hnd2 hdisk2).symm

/-- Claim C2 witness: the amended accounting equality on an `Add` of a fresh
5-byte file `b` to a store tracking the 2-byte file `a`, both on disk. -/
theorem claim2_acct_witness :
    (⟨"images", 10, 3, [⟨"a", 2⟩, ⟨"b", 5⟩], 7⟩ : LimitedDir).size =
      sumSizes (⟨"images", 10, 3, [⟨"a", 2⟩, ⟨"b", 5⟩], 7⟩ : LimitedDir).files :=
  claim2_acct (⟨"images", 10, 3, [⟨"a", 2⟩], 2⟩ : LimitedDir)
    [("a", 2), ("b", 5)] "b"
    (⟨"images", 10, 3, [⟨"a", 2⟩, ⟨"b", 5⟩], 7⟩ : LimitedDir)
    [("a", 2), ("b", 5)]
    (by decide) (by decide) (by decide) (by decide) rfl

/-- Claim C3: the store is FIFO, oldest first. Every successful `Add`
produces a tracked sequence that is a suffix of the old sequence with the
new entry appended at the end (eviction removes entries only at the front),
`List` returns the tracked names in that oldest-to-newest order, and with
maxCount 3 and a large maxSize, adding A, B, C, D in order leaves exactly
[B, C, D] in that order. -/
theorem claim3_fifo :
    (∀ (d : LimitedDir) (name : String) (disk : Disk)
        (d' : LimitedDir) (disk' : Disk),
        LimitedDir.Add d name disk = Except.ok (d', disk') →
        ∃ (sz : Int) (k : Nat), Disk.lookup disk name = some sz ∧
          d'.files = (d.files ++ ([⟨name, sz⟩] : List File)).drop k) ∧
    (∀ d : LimitedDir, d.List = d.files.map File.name) ∧
    (addOk (addOk (addOk (addOk (⟨"images", 1000000, 3, [], 0⟩ : LimitedDir)
        "A" [("A", 1)]).1
        "B" [("B", 1), ("A", 1)]).1
        "C" [("C", 1), ("B", 1), ("A", 1)]).1
        "D" [("D", 1), ("C", 1), ("B", 1), ("A", 1)]).1.List
      = ["B", "C", "D"] := by
  refine ⟨?_, fun d => rfl, by decide⟩
  intro d name disk d' disk' heq
  cases hl : Disk.lookup disk name with
  | none =>
    simp only [LimitedDir.Add, hl] at heq
    exact Except.noConfusion heq
  | some sz =>
    simp only [LimitedDir.Add, hl] at heq
    injection heq with heq
    have hd : d' =
        (LimitedDir.shrink
          { d with files := d.files ++ [⟨name, sz⟩], size := d.size + sz }
          disk).1 := by
      rw [heq]
    subst hd
    obtain ⟨k, hk⟩ := shrinkGo_drop d.maxSize d.maxCount
      (d.files ++ [⟨name, sz⟩]) (d.size + sz) disk
    exact ⟨sz, k, rfl, hk⟩

/-- Claim C3 witness: the append fact of the FIFO theorem evaluated on an
`Add` of a 2-byte file `x` to an empty store. -/
theorem claim3_fifo_witness :
    ∃ (sz : Int) (k : Nat), Disk.lookup [("x", 2)] "x" = some sz ∧
      (⟨"images", 5, 4, [⟨"x", 2⟩], 2⟩ : LimitedDir).files =
        (([] : List File) ++ ([⟨"x", sz⟩] : List File)).drop k :=
  claim3_fifo.1 (⟨"images", 5, 4, [], 0⟩ : LimitedDir) "x" [("x", 2)]
    (⟨"images", 5, 4, [⟨"x", 2⟩], 2⟩ : LimitedDir) [("x", 2)] rfl

/-- Claim C4: the claim is right about the intent but the code diverges.
`OpenLimitedDir` preallocates `files := make([]File, len(entries))` and the
`continue` for a non-regular entry skips only the assignment, so the entry
index keeps the zero value `File{"", 0}` in the tracked sequence instead of
contributing no entry. Evaluated on a directory holding one non-regular
entry (a 10-byte subdirectory): the pre-eviction tracked sequence is the
placeholder `[File.mk "" 0]`, not the empty list of regular files; the
total does match the (empty) sum of regular sizes. -/
theorem claim4_nonregular_placeholder :
    (openInit "images" 100 10 [⟨"subdir", 10, 0, false⟩]).files =
      [(⟨"", 0⟩ : File)] ∧
    (openInit "images" 100 10 [⟨"subdir", 10, 0, false⟩]).files ≠ [] ∧
    (openInit "images" 100 10 [⟨"subdir", 10, 0, false⟩]).size = 0 := by
  refine ⟨?_, ?_, ?_⟩ <;> decide

/-- Claim C5: with the first request accepted at `t1`, the stored timestamp
becomes `t1` itself; a second request at `t2` is rejected if and only if
`t2 - t1 < minDelay`; rejection leaves the gate unchanged and acceptance
updates it to `t2`. -/
theorem claim5_rate_gate (minDelay last0 t1 t2 : Int) (g1 : RateGate)
    (_ht : t1 < t2)
    (hacc : gateStep minDelay ⟨last0⟩ t1 = (true, g1)) :
    g1.lastTime = t1 ∧
    ((gateStep minDelay g1 t2).1 = false ↔ t2 - t1 < minDelay) ∧
    ((gateStep minDelay g1 t2).1 = false → (gateStep minDelay g1 t2).2 = g1) ∧
    ((gateStep minDelay g1 t2).1 = true →
      (gateStep minDelay g1 t2).2.lastTime = t2) := by
  have hg : g1 = ⟨t1⟩ := by
    unfold gateStep at hacc
    split at hacc
    · injection hacc with h1 h2
      exact h2.symm
    · injection hacc with h1 h2
      exact Bool.noConfusion h1
  subst hg
  by_cases h : t2 - t1 < minDelay
  · refine ⟨rfl, ?_, ?_, ?_⟩ <;>
      simp [gateStep, gateCheck, gateUpdate, h]
  · refine ⟨rfl, ?_, ?_, ?_⟩ <;>
      simp [gateStep, gateCheck, gateUpdate, h]

/-- Claim C5 witness: the gate evaluated with minDelay 5, first arrival at
time 0 (the previous acceptance long past), second arrival at time 3. -/
theorem claim5_rate_gate_witness :
    (⟨0⟩ : RateGate).lastTime = 0 ∧
    ((gateStep 5 ⟨0⟩ 3).1 = false ↔ (3 : Int) - 0 < 5) ∧
    ((gateStep 5 ⟨0⟩ 3).1 = false → (gateStep 5 ⟨0⟩ 3).2 = ⟨0⟩) ∧
    ((gateStep 5 ⟨0⟩ 3).1 = true → (gateStep 5 ⟨0⟩ 3).2.lastTime = 3) :=
  claim5_rate_gate 5 (-100) 0 3 ⟨0⟩ (by decide) (by decide)

/-- Claim C6: the claim states the check and the update happen inside one
critical section, but in the code the handler locks `lastTimeMutex`, reads
`lastTime`, unlocks, and only then re-locks to store `now`: two separate
critical sections. In the interleaving where both requests run their check
sections before either write section, two requests 1 time unit apart (with
minDelay 5) both pass the gate against the same stored instant, while the
sequentialised (atomic) gate rejects the second. -/
theorem claim6_nonatomic_gate :
    runGateSched 5 10 11 ⟨0, none, none⟩
        [GateEv.check1, GateEv.check2, GateEv.write1, GateEv.write2] =
      ⟨11, some true, some true⟩ ∧
    (11 : Int) - 10 < 5 ∧
    gateStep 5 (gateStep 5 ⟨0⟩ 10).2 11 = (false, ⟨10⟩) := by
  refine ⟨?_, ?_, ?_⟩ <;> decide

/-- Claim C7: `fixImage` with padding 20 extends each of the four bounds by
20 (so an N-wide, N-high image becomes (N+40)-wide and (N+40)-high), keeps
every pixel inside the original bounds equal to the original pixel, and
makes every pixel of the new canvas outside the original bounds opaque
white. -/
theorem claim7_padding (src : Img) :
    (fixImage src 20).bounds.minX = src.bounds.minX - 20 ∧
    (fixImage src 20).bounds.minY = src.bounds.minY - 20 ∧
    (fixImage src 20).bounds.maxX = src.bounds.maxX + 20 ∧
    (fixImage src 20).bounds.maxY = src.bounds.maxY + 20 ∧
    ((fixImage src 20).bounds.maxX - (fixImage src 20).bounds.minX =
      src.bounds.maxX - src.bounds.minX + 40) ∧
    ((fixImage src 20).bounds.maxY - (fixImage src 20).bounds.minY =
      src.bounds.maxY - src.bounds.minY + 40) ∧
    (∀ i j : Int, src.bounds.inside i j →
      (fixImage src 20).px i j = src.px i j) ∧
    (∀ i j : Int, (fixImage src 20).bounds.inside i j →
      ¬ src.bounds.inside i j → (fixImage src 20).px i j = white) := by
  refine ⟨rfl, rfl, rfl, rfl, ?_, ?_, ?_, ?_⟩
  · show src.bounds.maxX + 20 - (src.bounds.minX - 20) =
      src.bounds.maxX - src.bounds.minX + 40
    ring
  · show src.bounds.maxY + 20 - (src.bounds.minY - 20) =
      src.bounds.maxY - src.bounds.minY + 40
    ring
  · intro i j h
    exact if_pos h
  · intro i j hd hs
    exact if_neg hs

/-- A concrete 2 by 2 solid-color source image. -/
def sampleImg : Img := ⟨⟨0, 0, 2, 2⟩, fun _ _ => ⟨1, 2, 3, 255⟩⟩

/-- Claim C7 witness: the padding theorem evaluated on the sample image at
an interior pixel and at a border pixel of the padded canvas. -/
theorem claim7_padding_witness :
    (fixImage sampleImg 20).px 1 1 = sampleImg.px 1 1 ∧
    (fixImage sampleImg 20).px (-5) 0 = white :=
  ⟨(claim7_padding sampleImg).2.2.2.2.2.2.1 1 1 (by decide),
   (claim7_padding sampleImg).2.2.2.2.2.2.2 (-5) 0 (by decide) (by decide)⟩

/-- Claim C8: when the decode/re-encode of the input stream fails, `save`
returns an error outcome, registers nothing with the store, and the deferred
cleanup removes the partially written candidate file, so the store and the
disk are exactly as before the call (the candidate name being fresh). -/
theorem claim8_save_cleanup (store : LimitedDir) (disk : Disk) (name : String)
    (hfresh : Disk.lookup disk name = none) :
    save store disk name none =
      { store := store, disk := disk, ok := false } := by
  have h : Disk.remove (Disk.set disk name 0) name = disk := by
    show Disk.remove ((name, 0) :: Disk.remove disk name) name = disk
    rw [Disk.remove, if_pos rfl, Disk.remove_of_lookup_none disk name hfresh]
  show SaveOutcome.mk store (Disk.remove (Disk.set disk name 0) name) false =
    SaveOutcome.mk store disk false
  rw [h]

/-- Claim C8 witness: a failing ingestion into a store over a disk holding
only `x`, with fresh candidate name `y`. -/
theorem claim8_save_cleanup_witness :
    save (⟨"images", 10, 5, [], 0⟩ : LimitedDir) [("x", 1)] "y" none =
      { store := (⟨"images", 10, 5, [], 0⟩ : LimitedDir),
        disk := [("x", 1)], ok := false } :=
  claim8_save_cleanup (⟨"images", 10, 5, [], 0⟩ : LimitedDir) [("x", 1)] "y"
    (by decide)

/-- Claim C9: `Add` stats the file on disk; when the file is absent it
returns an error (and produces no new state at all, so the tracked sequence
and the running total are unchanged), and when the stat succeeds the entry
it appends carries the freshly statted size, after which only the eviction
loop runs. -/
theorem claim9_add_stat (d : LimitedDir) (name : String) (disk : Disk) :
    (Disk.lookup disk name = none →
      LimitedDir.Add d name disk = Except.error AddError.notFound) ∧
    (∀ sz : Int, Disk.lookup disk name = some sz →
      LimitedDir.Add d name disk =
        Except.ok (LimitedDir.shrink
          { d with files := d.files ++ [⟨name, sz⟩], size := d.size + sz }
          disk)) := by
  constructor
  · intro h
    simp only [LimitedDir.Add, h]
  · intro sz h
    simp only [LimitedDir.Add, h]

/-- Claim C9 witness: `Add` of a name absent from the disk fails with the
not-found error. -/
theorem claim9_add_stat_witness :
    LimitedDir.Add (⟨"images", 10, 5, [], 0⟩ : LimitedDir) "gone" [("x", 1)] =
      Except.error AddError.notFound :=
  (claim9_add_stat (⟨"images", 10, 5, [], 0⟩ : LimitedDir) "gone"
    [("x", 1)]).1 (by decide)

/-- Claim C10: adding a name that is already tracked neither replaces nor
deduplicates the existing entry: `Add` appends a second entry with the same
name and adds the freshly statted size to the running total again, so the
single on-disk file is counted twice against both quota limits (here stated
when the quotas still hold afterwards, so the eviction loop does not run). -/
theorem claim10_dup_add (d : LimitedDir) (name : String) (disk : Disk)
    (sz : Int) (f : File)
    (hmem : f ∈ d.files) (hname : f.name = name)
    (hlook : Disk.lookup disk name = some sz)
    (hsize : d.size + sz ≤ d.maxSize)
    (hcount : d.files.length + 1 ≤ d.maxCount) :
    ∃ (d' : LimitedDir) (disk' : Disk),
      LimitedDir.Add d name disk = Except.ok (d', disk') ∧
      d'.files = d.files ++ ([⟨name, sz⟩] : List File) ∧
      d'.size = d.size + sz ∧
      2 ≤ (d'.files.filter (fun g => g.name == name)).length := by
  have hlen : (d.files ++ ([⟨name, sz⟩] : List File)).length ≤ d.maxCount := by
    rw [List.length_append]
    simpa using hcount
  have hnoop := shrinkGo_noop d.maxSize d.maxCount
    (d.files ++ [⟨name, sz⟩]) (d.size + sz) disk hsize hlen
  simp only [LimitedDir.Add, hlook]
  refine ⟨_, _, rfl, ?_, ?_, ?_⟩
  · show (shrinkGo d.maxSize d.maxCount
      (d.files ++ [⟨name, sz⟩]) (d.size + sz) disk).1 =
        d.files ++ ([⟨name, sz⟩] : List File)
    rw [hnoop]
  · show (shrinkGo d.maxSize d.maxCount
      (d.files ++ [⟨name, sz⟩]) (d.size + sz) disk).2.1 = d.size + sz
    rw [hnoop]
  · show 2 ≤ (((shrinkGo d.maxSize d.maxCount
      (d.files ++ [⟨name, sz⟩]) (d.size + sz) disk).1).filter
        (fun g => g.name == name)).length
    rw [hnoop]
    show 2 ≤ ((d.files ++ [(⟨name, sz⟩ : File)]).filter
      (fun g => g.name == name)).length
    rw [List.filter_append]
    have h1 : f ∈ d.files.filter (fun g => g.name == name) :=
      List.mem_filter.mpr ⟨hmem, by simp [hname]⟩
    have h2 : List.filter (fun g => g.name == name) [(⟨name, sz⟩ : File)] =
        [(⟨name, sz⟩ : File)] := by simp
    rw [h2, List.length_append]
    have h3 := List.length_pos_of_mem h1
    simp only [List.length_singleton]
    omega

/-- Claim C10 witness: adding `a` to a store already tracking `a` (3 bytes
on disk) yields two tracked entries named `a` and a doubled total. -/
theorem claim10_dup_add_witness :
    ∃ (d' : LimitedDir) (disk' : Disk),
      LimitedDir.Add (⟨"images", 100, 10, [⟨"a", 3⟩], 3⟩ : LimitedDir) "a"
          [("a", 3)] =
        Except.ok (d', disk') ∧
      d'.files = [(⟨"a", 3⟩ : File)] ++ ([⟨"a", 3⟩] : List File) ∧
      d'.size = 3 + 3 ∧
      2 ≤ (d'.files.filter (fun g => g.name == "a")).length :=
  claim10_dup_add (⟨"images", 100, 10, [⟨"a", 3⟩], 3⟩ : LimitedDir) "a"
    [("a", 3)] 3 (⟨"a", 3⟩ : File)
    (by decide) rfl (by decide) (by decide) (by decide)
